import Mathlib

/-!
Shallow embedding of the htr-search indexing and query-presentation code
(`src/indexer.py`, `src/gui.py`), together with theorems checking the
natural-language specification's claims against it.

Machine integers are modelled as `Nat` with explicit reduction modulo `2^32`
where the source relies on 32-bit wrap-around (inside SHA-256).  Python
dictionaries (which preserve insertion order) are modelled as association
lists keyed by their first occurrence.  File-system effects are modelled by
explicit state passing over snapshot structures.
-/

namespace HtrSearch

/-! ### SHA-256 (model of `hashlib.sha256(...).hexdigest()` used by
`generate_line_id` in `src/indexer.py`) -/

/-- `2^32`, the modulus for 32-bit words. -/
def w32 : Nat := 4294967296

/-- Right rotation of a 32-bit word (input assumed `< 2^32`). -/
def rotr (n x : Nat) : Nat := x / 2 ^ n + x % 2 ^ n * 2 ^ (32 - n)

/-- Bitwise complement of a 32-bit word (input assumed `< 2^32`). -/
def comp32 (x : Nat) : Nat := 4294967295 - x

/-- SHA-256 `Ch` function. -/
def shaCh (e f g : Nat) : Nat := (e &&& f) ^^^ (comp32 e &&& g)

/-- SHA-256 `Maj` function. -/
def shaMaj (a b c : Nat) : Nat := (a &&& b) ^^^ (a &&& c) ^^^ (b &&& c)

/-- SHA-256 big sigma 0. -/
def bsig0 (x : Nat) : Nat := rotr 2 x ^^^ rotr 13 x ^^^ rotr 22 x

/-- SHA-256 big sigma 1. -/
def bsig1 (x : Nat) : Nat := rotr 6 x ^^^ rotr 11 x ^^^ rotr 25 x

/-- SHA-256 small sigma 0. -/
def ssig0 (x : Nat) : Nat := rotr 7 x ^^^ rotr 18 x ^^^ x / 2 ^ 3

/-- SHA-256 small sigma 1. -/
def ssig1 (x : Nat) : Nat := rotr 17 x ^^^ rotr 19 x ^^^ x / 2 ^ 10

/-- The 64 SHA-256 round constants. -/
def K256 : List Nat :=
  [1116352408, 1899447441, 3049323471, 3921009573,
   961987163, 1508970993, 2453635748, 2870763221,
   3624381080, 310598401, 607225278, 1426881987,
   1925078388, 2162078206, 2614888103, 3248222580,
   3835390401, 4022224774, 264347078, 604807628,
   770255983, 1249150122, 1555081692, 1996064986,
   2554220882, 2821834349, 2952996808, 3210313671,
   3336571891, 3584528711, 113926993, 338241895,
   666307205, 773529912, 1294757372, 1396182291,
   1695183700, 1986661051, 2177026350, 2456956037,
   2730485921, 2820302411, 3259730800, 3345764771,
   3516065817, 3600352804, 4094571909, 275423344,
   430227734, 506948616, 659060556, 883997877,
   958139571, 1322822218, 1537002063, 1747873779,
   1955562222, 2024104815, 2227730452, 2361852424,
   2428436474, 2756734187, 3204031479, 3329325298]

/-- The eight 32-bit working variables of the SHA-256 compression function. -/
structure Hash8 where
  a : Nat
  b : Nat
  c : Nat
  d : Nat
  e : Nat
  f : Nat
  g : Nat
  h : Nat
deriving Repr, DecidableEq

/-- SHA-256 initial hash value. -/
def shaInit : Hash8 :=
  ⟨1779033703, 3144134277, 1013904242, 2773480762,
  1359893119, 2600822924, 528734635, 1541459225⟩

/-- One SHA-256 round, consuming a pair of round constant and schedule word. -/
def roundStep (st : Hash8) (kw : Nat × Nat) : Hash8 :=
  let t1 := (st.h + bsig1 st.e + shaCh st.e st.f st.g + kw.1 + kw.2) % w32
  let t2 := (bsig0 st.a + shaMaj st.a st.b st.c) % w32
  ⟨(t1 + t2) % w32, st.a, st.b, st.c, (st.d + t1) % w32, st.e, st.f, st.g⟩

/-- Extend the (reversed) message schedule by `n` further words. -/
def extendSchedule : Nat → List Nat → List Nat
  | 0, ws => ws
  | n + 1, ws =>
    let nw := (ssig1 (ws.getD 1 0) + ws.getD 6 0 + ssig0 (ws.getD 14 0)
      + ws.getD 15 0) % w32
    extendSchedule n (nw :: ws)

/-- Split a list into chunks of `m + 1` elements (last chunk may be short);
`fuel` bounds the recursion and is instantiated with the list length. -/
def chunksOfGo (m : Nat) : Nat → List Nat → List (List Nat)
  | _, [] => []
  | 0, _ :: _ => []
  | fuel + 1, x :: xs =>
    (x :: xs).take (m + 1) :: chunksOfGo m fuel ((x :: xs).drop (m + 1))

/-- Split a list into chunks of `m + 1` elements (last chunk may be short). -/
def chunksOf (m : Nat) (l : List Nat) : List (List Nat) := chunksOfGo m l.length l

/-- Big-endian 32-bit word from (up to) four bytes. -/
def wordOfBytes (bs : List Nat) : Nat :=
  bs.getD 0 0 * 2 ^ 24 + bs.getD 1 0 * 2 ^ 16 + bs.getD 2 0 * 2 ^ 8 + bs.getD 3 0

/-- Big-endian bytes of a 32-bit word. -/
def wordBytes (x : Nat) : List Nat :=
  [x / 2 ^ 24 % 256, x / 2 ^ 16 % 256, x / 2 ^ 8 % 256, x % 256]

/-- SHA-256 compression of one 64-byte block into the chaining state. -/
def compressBlock (st : Hash8) (block : List Nat) : Hash8 :=
  let first16 := (chunksOf 3 block).map wordOfBytes
  let sched := (extendSchedule 48 first16.reverse).reverse
  let r := (K256.zip sched).foldl roundStep st
  ⟨(st.a + r.a) % w32, (st.b + r.b) % w32, (st.c + r.c) % w32, (st.d + r.d) % w32,
   (st.e + r.e) % w32, (st.f + r.f) % w32, (st.g + r.g) % w32, (st.h + r.h) % w32⟩

/-- SHA-256 padding: append `0x80`, zeros, and the 64-bit big-endian bit length. -/
def padMessage (msg : List Nat) : List Nat :=
  let L := msg.length
  let bits := L * 8
  msg ++ 128 :: List.replicate ((120 - (L + 1) % 64) % 64) 0
    ++ [bits / 2 ^ 56 % 256, bits / 2 ^ 48 % 256, bits / 2 ^ 40 % 256,
        bits / 2 ^ 32 % 256, bits / 2 ^ 24 % 256, bits / 2 ^ 16 % 256,
        bits / 2 ^ 8 % 256, bits % 256]

/-- SHA-256 digest (32 bytes) of a byte sequence. -/
def sha256Bytes (msg : List Nat) : List Nat :=
  let st := (chunksOf 63 (padMessage msg)).foldl compressBlock shaInit
  [st.a, st.b, st.c, st.d, st.e, st.f, st.g, st.h].flatMap wordBytes

/-- Lower-case hexadecimal digit for a value `< 16`. -/
def hexDigitChar : Nat → Char
  | 0 => '0' | 1 => '1' | 2 => '2' | 3 => '3'
  | 4 => '4' | 5 => '5' | 6 => '6' | 7 => '7'
  | 8 => '8' | 9 => '9' | 10 => 'a' | 11 => 'b'
  | 12 => 'c' | 13 => 'd' | 14 => 'e' | _ => 'f'

/-- Two lower-case hex characters of one byte. -/
def byteHexChars (b : Nat) : List Char :=
  [hexDigitChar (b / 16 % 16), hexDigitChar (b % 16)]

/-- Lower-case hex string of a byte sequence (model of `.hexdigest()`). -/
def toHex (bs : List Nat) : String :=
  String.mk (bs.flatMap byteHexChars)

/-- UTF-8 encoding of one character (model of Python `str.encode("utf-8")`). -/
def utf8EncodeChar (c : Char) : List Nat :=
  let n := c.toNat
  if n < 128 then [n]
  else if n < 2048 then [192 + n / 64, 128 + n % 64]
  else if n < 65536 then [224 + n / 4096, 128 + n / 64 % 64, 128 + n % 64]
  else [240 + n / 262144, 128 + n / 4096 % 64, 128 + n / 64 % 64, 128 + n % 64]

/-- UTF-8 encoding of a string as a byte sequence. -/
def utf8Encode (s : String) : List Nat := s.toList.flatMap utf8EncodeChar

/-! ### `generate_line_id` (src/indexer.py lines 16-34) -/

/-- Python `str` of one coordinate pair, as the tuples produced by
`parse_pagexml` render: `str((x, y)) = "(x, y)"`. -/
def pyStrPair (p : Int × Int) : String :=
  "(" ++ toString p.1 ++ ", " ++ toString p.2 ++ ")"

/-- `"_".join(map(str, coords))` from `generate_line_id`. -/
def coordsStr (coords : List (Int × Int)) : String :=
  String.intercalate "_" (coords.map pyStrPair)

/-- `generate_line_id` from src/indexer.py: SHA-256 hex digest of the joined
coordinate string, concatenated to the document path with `"_"`. -/
def generate_line_id (doc_path : String) (coords : List (Int × Int)) : String :=
  doc_path ++ "_" ++ toHex (sha256Bytes (utf8Encode (coordsStr coords)))

/-! ### Index metadata (src/indexer.py lines 37-50) -/

/-- The persisted metadata: mapping from document path to last-observed
modification time.  Python dicts preserve insertion order and have unique
keys; modelled as an association list looked up at the first matching key.
Modification times (floats with file-system granularity) are modelled as
`Nat`; the source only ever compares them. -/
abbrev IndexMeta := List (String × Nat)

/-- First-match association lookup, model of `meta[doc_path]` /
`doc_path in meta`. -/
def lookupMeta : IndexMeta → String → Option Nat
  | [], _ => none
  | (k, v) :: rest, p => if k = p then some v else lookupMeta rest p

/-- Model of `meta[doc_path] = value`: update the existing key in place or
append a new one. -/
def setMeta : IndexMeta → String → Nat → IndexMeta
  | [], p, v => [(p, v)]
  | (k, w) :: rest, p, v =>
    if k = p then (k, v) :: rest else (k, w) :: setMeta rest p v

/-- The possible states of the on-disk `index_meta.json` as a reader would
observe them. -/
inductive MetaFileState
  | absent
  | full (m : IndexMeta)
  | truncated
deriving DecidableEq, Repr

/-- File-system operations relevant to rewriting the metadata file.
`openTrunc`/`writeAll` are what the source performs; `writeTemp`/`renameTemp`
are the operations an atomic replace would use (never performed by the
source). -/
inductive MetaFsOp
  | openTrunc
  | writeAll (m : IndexMeta)
  | writeTemp (m : IndexMeta)
  | renameTemp
deriving DecidableEq, Repr

/-- `save_index_meta` (src/indexer.py lines 37-41) as the sequence of
operations it performs on `index_dir/index_meta.json`:
`open(meta_path, "w")` truncates the target file in place, then `json.dump`
writes the mapping into it.  No temporary file and no rename are involved. -/
def save_index_meta_ops (meta : IndexMeta) : List MetaFsOp :=
  [MetaFsOp.openTrunc, MetaFsOp.writeAll meta]

/-- Modelled from the spec: `save(store_location, metadata)` as an atomic
replace — write the mapping to a temporary location, then rename it into
place.  Present only to contrast with `save_index_meta_ops`. -/
def saveAtomicOps (meta : IndexMeta) : List MetaFsOp :=
  [MetaFsOp.writeTemp meta, MetaFsOp.renameTemp]

/-- Target and temporary file contents during a save. -/
structure MetaFs where
  target : MetaFileState
  temp : MetaFileState
deriving DecidableEq, Repr

/-- Effect of one operation on the two files. -/
def applyMetaOp (s : MetaFs) : MetaFsOp → MetaFs
  | MetaFsOp.openTrunc => ⟨MetaFileState.truncated, s.temp⟩
  | MetaFsOp.writeAll m => ⟨MetaFileState.full m, s.temp⟩
  | MetaFsOp.writeTemp m => ⟨s.target, MetaFileState.full m⟩
  | MetaFsOp.renameTemp => ⟨s.temp, MetaFileState.absent⟩

/-- All intermediate file states a concurrent reader could observe while the
given operations run, including the initial and final state. -/
def metaStatesDuring (init : MetaFs) (ops : List MetaFsOp) : List MetaFs :=
  ops.scanl applyMetaOp init

/-! ### Documents and the indexing pass (src/indexer.py lines 78-221) -/

/-- One parsed text line, as produced by `parse_pagexml`: a polygon of
integer coordinate pairs and a transcription string. -/
structure LineData where
  coords : List (Int × Int)
  transcription : String
deriving DecidableEq, Repr

/-- One document retained by `get_lines_from_documents`: its path, resolved
image path, parsed lines, and the modification time `os.path.getmtime`
returns for it during this pass. -/
structure ParsedDoc where
  path : String
  image_path : String
  lines : List LineData
  mtime : Nat
deriving DecidableEq, Repr

/-- The fields passed to `writer.update_document` for one line (the stored
record; the schema marks `line_id` unique). -/
structure Record where
  doc_path : String
  line_id : String
  content : String
  coords : List (Int × Int)
  image_path : String
deriving DecidableEq, Repr

/-- The stored index, keyed by the unique `line_id`. -/
abbrev IndexState := List (String × Record)

/-- Whoosh `update_document` on a schema with unique `line_id`: replace any
existing record with the same id, otherwise insert. -/
def upsertRecord : IndexState → Record → IndexState
  | [], r => [(r.line_id, r)]
  | (k, old) :: rest, r =>
    if k = r.line_id then (k, r) :: rest else (k, old) :: upsertRecord rest r

/-- Committing a writer applies its batched upserts in order. -/
def applyBatch (ix : IndexState) (batch : List Record) : IndexState :=
  batch.foldl upsertRecord ix

/-- The records upserted for one processed document (update_index lines
188-204): one per parsed line, with the derived line id. -/
def docRecords (doc : ParsedDoc) : List Record :=
  doc.lines.map fun line =>
    ⟨doc.path, generate_line_id doc.path line.coords, line.transcription,
     line.coords, doc.image_path⟩

/-- The skip test of update_index line 182:
`doc_path in meta and meta[doc_path] >= last_modified`. -/
def skipUnchanged (meta : IndexMeta) (doc_path : String) (current_mtime : Nat) :
    Bool :=
  match lookupMeta meta doc_path with
  | some t => current_mtime ≤ t
  | none => false

/-- The re-index decision as update_index realizes it: a document is
processed exactly when the skip test fails. -/
def should_reindex (doc_path : String) (current_mtime : Nat) (meta : IndexMeta) :
    Bool :=
  !skipUnchanged meta doc_path current_mtime

/-- Mutable state of the indexing loop (update_index lines 170-208): the
writer's batched upserts, the metadata being rebuilt, and the three
counters. -/
structure PassLoopState where
  batch : List Record
  new_meta : IndexMeta
  newDocs : Nat
  skippedDocs : Nat
  newLines : Nat
deriving DecidableEq, Repr

/-- One iteration of the loop over `documents` (update_index lines 178-208). -/
def passStep (meta : IndexMeta) (s : PassLoopState) (doc : ParsedDoc) :
    PassLoopState :=
  match lookupMeta meta doc.path with
  | some t =>
    if doc.mtime ≤ t then
      { s with new_meta := setMeta s.new_meta doc.path t,
               skippedDocs := s.skippedDocs + 1 }
    else
      { batch := s.batch ++ docRecords doc,
        new_meta := setMeta s.new_meta doc.path doc.mtime,
        newDocs := s.newDocs + 1,
        skippedDocs := s.skippedDocs,
        newLines := s.newLines + doc.lines.length }
  | none =>
      { batch := s.batch ++ docRecords doc,
        new_meta := setMeta s.new_meta doc.path doc.mtime,
        newDocs := s.newDocs + 1,
        skippedDocs := s.skippedDocs,
        newLines := s.newLines + doc.lines.length }

/-- The whole loop over `documents`. -/
def passLoop (meta : IndexMeta) : PassLoopState → List ParsedDoc → PassLoopState
  | s, [] => s
  | s, d :: ds => passLoop meta (passStep meta s d) ds

/-- Initial loop state: empty batch, empty `new_meta`, zero counters. -/
def initLoopState : PassLoopState := ⟨[], [], 0, 0, 0⟩

/-- The counters update_index logs at the end of a pass. -/
structure Report where
  newDocs : Nat
  skippedDocs : Nat
  newLines : Nat
deriving DecidableEq, Repr

/-- Whether the call returned normally or propagated an exception. -/
inductive Outcome
  | normal
  | raised
deriving DecidableEq, Repr

/-- Observable result of one `update_index` pass: the stored index, the
content of the persisted metadata file, the logged counters (`none` when the
pass ended before the counter log, i.e. early return or exception), whether
`save_index_meta` was called, and how the call ended. -/
structure PassResult where
  index : IndexState
  metaFile : IndexMeta
  report : Option Report
  metaSaved : Bool
  outcome : Outcome
deriving DecidableEq, Repr

/-- update_index lines 160-221, given the already-gathered `documents`.
`commitOk` models whether `writer.commit()` succeeds; when it fails, the
transactional store discards the batch and the exception propagates, so
`save_index_meta` is never reached and the metadata file keeps its old
content.  When it succeeds, the metadata file is rewritten with `new_meta`
only if at least one document was added or updated (line 211). -/
def update_index_docs (commitOk : Bool) (docs : List ParsedDoc)
    (metaFile : IndexMeta) (ix : IndexState) : PassResult :=
  if docs = [] then ⟨ix, metaFile, none, false, Outcome.normal⟩
  else
    let s := passLoop metaFile initLoopState docs
    if commitOk then
      if s.newDocs ≠ 0 then
        ⟨applyBatch ix s.batch, s.new_meta,
         some ⟨s.newDocs, s.skippedDocs, s.newLines⟩, true, Outcome.normal⟩
      else
        ⟨applyBatch ix s.batch, metaFile,
         some ⟨s.newDocs, s.skippedDocs, s.newLines⟩, false, Outcome.normal⟩
    else ⟨ix, metaFile, none, false, Outcome.raised⟩

/-- One `.xml` file discovered under the document root: its path, current
modification time, the outcome of `parse_pagexml` on it (`none` models the
caught parse exception), and the image path resolved for its basename
(`none` when `image_dict` has no match). -/
structure SourceDoc where
  path : String
  mtime : Nat
  parsed : Option (List LineData)
  image : Option String
deriving DecidableEq, Repr

/-- A snapshot of the file system as `get_lines_from_documents` observes it:
the two directory checks and the `.xml` files in scan order. -/
structure Corpus where
  rootIsDir : Bool
  imageDirOk : Bool
  files : List SourceDoc
deriving DecidableEq, Repr

/-- The builder's document filter (src/indexer.py line 103): any file whose
name ends in `.xml` is gathered (`file.endswith(".xml")`). -/
def acceptsXmlFile (file : String) : Bool :=
  List.isSuffixOf ".xml".toList file.toList

/-- Which retained document a parsed file contributes (lines 127-145): kept
only when parsing succeeded, produced at least one line, and an image
matched; otherwise skipped with a debug note. -/
def sourceToDoc (f : SourceDoc) : Option ParsedDoc :=
  match f.parsed with
  | some lines =>
    if lines = [] then none
    else
      match f.image with
      | some img => some ⟨f.path, img, lines, f.mtime⟩
      | none => none
  | none => none

/-- `get_lines_from_documents` (lines 78-147).  First component: the returned
document list (`none` for the two directory-validation failures and for an
empty scan).  Second: the files on which `parse_pagexml` was invoked (every
discovered file, regardless of metadata).  Third: whether a `logging.error`
was emitted (exactly the two bad-directory branches). -/
def get_lines_from_documents (c : Corpus) :
    Option (List ParsedDoc) × List String × Bool :=
  if !c.rootIsDir then (none, [], true)
  else if !c.imageDirOk then (none, [], true)
  else if c.files = [] then (none, [], false)
  else (some (c.files.filterMap sourceToDoc), c.files.map (fun f => f.path), false)

/-- Observable result of a full `update_index` call. -/
structure RunResult where
  index : IndexState
  metaFile : IndexMeta
  report : Option Report
  metaSaved : Bool
  outcome : Outcome
  configErrorLogged : Bool
  parsedPaths : List String
deriving DecidableEq, Repr

/-- `update_index` (src/indexer.py lines 150-221): gather documents, and if
any were returned run the indexing loop, commit, and conditionally rewrite
the metadata.  A `None`/empty gather ends the pass normally at line 166. -/
def update_index (commitOk : Bool) (c : Corpus) (metaFile : IndexMeta)
    (ix : IndexState) : RunResult :=
  match get_lines_from_documents c with
  | (none, parsedPaths, cfgErr) =>
    ⟨ix, metaFile, none, false, Outcome.normal, cfgErr, parsedPaths⟩
  | (some docs, parsedPaths, cfgErr) =>
    let r := update_index_docs commitOk docs metaFile ix
    ⟨r.index, r.metaFile, r.report, r.metaSaved, r.outcome, cfgErr, parsedPaths⟩

/-! ### Highlighting (src/gui.py lines 286-318) -/

/-- Per-character expansion performed by Python `html.escape` with the
default `quote=True`.  (`html.escape` chains `str.replace` calls, `&` first;
that is equivalent to this single character-wise pass.) -/
def escChar : Char → List Char
  | '&' => ['&', 'a', 'm', 'p', ';']
  | '<' => ['&', 'l', 't', ';']
  | '>' => ['&', 'g', 't', ';']
  | '"' => ['&', 'q', 'u', 'o', 't', ';']
  | '\'' => ['&', '#', 'x', '2', '7', ';']
  | c => [c]

/-- `html.escape` on a character list. -/
def escapeChars (cs : List Char) : List Char := cs.flatMap escChar

/-- Python `html.escape(s)` (quote=True). -/
def pyHtmlEscape (s : String) : String := String.mk (escapeChars s.toList)

/-- Model of `set(matched_terms)`: drop duplicates, keeping first
occurrences.  (CPython leaves set iteration order unspecified; the order
among distinct equal-length terms does not affect the rendered output
because the replacement re-reads the matched text, so fixing first-seen
order is harmless.) -/
def dedupFirstFrom (seen : List String) : List String → List String
  | [] => []
  | t :: ts =>
    if seen.contains t then dedupFirstFrom seen ts
    else t :: dedupFirstFrom (t :: seen) ts

/-- Stable insertion for the descending-length sort. -/
def insertByLenDesc (t : String) : List String → List String
  | [] => [t]
  | u :: us =>
    if t.length < u.length then u :: insertByLenDesc t us else t :: u :: us

/-- `sorted(terms, key=len, reverse=True)`: Python's sort is stable and
`reverse=True` keeps equal-length terms in their original order. -/
def sortByLenDesc : List String → List String
  | [] => []
  | t :: ts => insertByLenDesc t (sortByLenDesc ts)

/-- `sorted(set(matched_terms), key=len, reverse=True)`, as character lists.
(`re.escape` only neutralizes regex metacharacters, so each alternative in
the built pattern matches its term literally; the model matches literals
directly.) -/
def prepTerms (matched_terms : List String) : List (List Char) :=
  (sortByLenDesc (dedupFirstFrom [] matched_terms)).map String.toList

/-- Python regex `\w` as it applies to the ASCII data at hand: alphanumeric
characters and underscore. -/
def isWordChar (c : Char) : Bool := c.isAlphanum || c == '_'

/-- Word-character status of an optional character; out of range counts as
non-word. -/
def isWordOpt : Option Char → Bool
  | some c => isWordChar c
  | none => false

/-- Case-insensitive character equality (re.IGNORECASE on ASCII). -/
def lowEq (a b : Char) : Bool := a.toLower == b.toLower

/-- Does `t` occur case-insensitively at the head of `cs`? -/
def ciStartsWith : List Char → List Char → Bool
  | [], _ => true
  | _ :: _, [] => false
  | a :: ts, b :: cs => lowEq a b && ciStartsWith ts cs

/-- Word-character status of the last character consumed so far; `pw` is the
status of the character preceding the current position. -/
def lastWordStatus (pw : Bool) (consumed : List Char) : Bool :=
  match consumed.getLast? with
  | some c => isWordChar c
  | none => pw

/-- Attempt to match the regex fragment `\b(term)\b` — `term` a literal,
matched case-insensitively — at the current position of the text.  `pw` is
the word-character status of the character just before the position.
Returns the number of text characters the match consumes. -/
def matchLen (pw : Bool) (t : List Char) (cs : List Char) : Option Nat :=
  if ciStartsWith t cs then
    if (pw != isWordOpt cs.head?)
        && (lastWordStatus pw (cs.take t.length)
              != isWordOpt (cs.drop t.length).head?) then
      some t.length
    else none
  else none

/-- Regex alternation over the sorted terms: the first alternative that
matches at the current position wins. -/
def findMatch (pw : Bool) (ts : List (List Char)) (cs : List Char) : Option Nat :=
  match ts with
  | [] => none
  | t :: rest =>
    match matchLen pw t cs with
    | some n => some n
    | none => findMatch pw rest cs

/-- The segmentation computed by
`re.sub(pattern, repl, text, flags=re.IGNORECASE)` for the pattern
`\b(t1|t2|...)\b`: scan left to right; wherever the alternation matches,
emit a wrapped segment holding the matched text and resume after it (after
an empty match, Python copies one character and advances); everywhere else
copy one character as an unwrapped segment.  `fuel` bounds the recursion and
is instantiated with the text length, which every recursive call strictly
decreases. -/
def subSegments (ts : List (List Char)) : Nat → Bool → List Char →
    List (Bool × List Char)
  | _, pw, [] => if (findMatch pw ts []).isSome then [(true, [])] else []
  | 0, _, c :: cs' => [(false, c :: cs')]
  | fuel + 1, pw, c :: cs' =>
    match findMatch pw ts (c :: cs') with
    | some 0 =>
      (true, []) :: (false, [c]) :: subSegments ts fuel (isWordChar c) cs'
    | some (n + 1) =>
      let consumed := (c :: cs').take (n + 1)
      (true, consumed) ::
        subSegments ts fuel (lastWordStatus pw consumed) ((c :: cs').drop (n + 1))
    | none => (false, [c]) :: subSegments ts fuel (isWordChar c) cs'

/-- `<strong>` as inserted by `repl`. -/
def strongOpen : List Char := ['<', 's', 't', 'r', 'o', 'n', 'g', '>']

/-- `</strong>` as inserted by `repl`. -/
def strongClose : List Char := ['<', '/', 's', 't', 'r', 'o', 'n', 'g', '>']

/-- Concatenate the segments back into the output text, wrapping the matched
ones in `<strong>` tags. -/
def renderSegments (segs : List (Bool × List Char)) : List Char :=
  segs.flatMap fun seg =>
    if seg.1 then strongOpen ++ seg.2 ++ strongClose else seg.2

/-- `MainWindow.highlight_matched_terms` (src/gui.py lines 286-318): return
the text unchanged when no terms matched; otherwise HTML-escape it and wrap
every case-insensitive whole-word occurrence of the matched terms (longest
alternatives tried first) in `<strong>` tags. -/
def highlight_matched_terms (text : String) (matched_terms : List String) :
    String :=
  if matched_terms = [] then text
  else
    let escaped := escapeChars text.toList
    String.mk
      (renderSegments (subSegments (prepTerms matched_terms) escaped.length false escaped))

/-! ### Grouping and presentation ordering (src/indexer.py lines 312-332,
src/gui.py lines 233-236) -/

/-- One query hit as `search_index` returns it.  (The advisory float
`score` field is not modelled: none of the functions treated here read
it.) -/
structure Hit where
  doc_path : String
  line_id : String
  content : String
  matched_terms : List String
  coords : List (Int × Int)
  image_path : String
deriving DecidableEq, Repr

/-- Value of one entry of `doc_dict`. -/
structure DocumentGroup where
  image_path : String
  lines : List Hit
  num_lines : Nat
deriving DecidableEq, Repr

/-- `doc_dict`, modelled as an insertion-ordered association list. -/
abbrev GroupMap := List (String × DocumentGroup)

/-- First-match association lookup on `doc_dict`. -/
def lookupGroup : GroupMap → String → Option DocumentGroup
  | [], _ => none
  | (k, g) :: rest, p => if k = p then some g else lookupGroup rest p

/-- `doc_path not in doc_dict` (negated). -/
def containsGroup (m : GroupMap) (p : String) : Bool := (lookupGroup m p).isSome

/-- Appending one hit to a group and bumping its count (lines 330-331). -/
def pushHit (g : DocumentGroup) (line : Hit) : DocumentGroup :=
  ⟨g.image_path, g.lines ++ [line], g.num_lines + 1⟩

/-- In-place update of the entry at a key (dict entries keep their
position). -/
def updateGroup : GroupMap → String → (DocumentGroup → DocumentGroup) →
    GroupMap
  | [], _, _ => []
  | (k, g) :: rest, p, f =>
    if k = p then (k, f g) :: rest else (k, g) :: updateGroup rest p f

/-- One iteration of the loop of `group_lines_by_document` (lines 325-331):
create a fresh empty entry for an unseen document path, then append the hit
and bump the count. -/
def groupStep (acc : GroupMap) (line : Hit) : GroupMap :=
  let acc1 :=
    if containsGroup acc line.doc_path then acc
    else acc ++ [(line.doc_path, ⟨line.image_path, [], 0⟩)]
  updateGroup acc1 line.doc_path (fun g => pushHit g line)

/-- `group_lines_by_document` (src/indexer.py lines 312-332). -/
def group_lines_by_document (matching_lines : List Hit) : GroupMap :=
  matching_lines.foldl groupStep []

/-- Stable insertion for the descending-count sort. -/
def insertDocDesc (x : String × DocumentGroup) : GroupMap → GroupMap
  | [] => [x]
  | y :: ys =>
    if x.2.num_lines < y.2.num_lines then y :: insertDocDesc x ys
    else x :: y :: ys

/-- `sorted(grouped_lines.items(), key=lambda x: x[1]["num_lines"],
reverse=True)` (src/gui.py lines 234-236): Python's `sorted` is stable and
`reverse=True` keeps ties in their original order, so the result is the
stable descending sort by `num_lines`. -/
def sortDocsByNumLines : GroupMap → GroupMap
  | [] => []
  | x :: xs => insertDocDesc x (sortDocsByNumLines xs)

/-- The distinct values of a list in first-seen order (`seen` accumulates
the values already emitted, in order). -/
def firstSeenFrom (seen : List String) : List String → List String
  | [] => seen
  | p :: ps =>
    firstSeenFrom (if seen.contains p then seen else seen ++ [p]) ps

/-- Case-insensitive equality of two character lists. -/
def ciEqChars (s t : List Char) : Bool :=
  s.length == t.length && ciStartsWith t s

/-- A group extended by a further batch of hits (specification-side closed
form of repeated `pushHit`). -/
def extendGroup (g : DocumentGroup) (fl : List Hit) : DocumentGroup :=
  ⟨g.image_path, g.lines ++ fl, g.num_lines + fl.length⟩

/-- A small two-document corpus used by concrete witnesses. -/
def sampleCorpus : Corpus :=
  ⟨true, true,
   [⟨"a.xml", 5, some [⟨[(0, 0)], "hi"⟩], some "a.jpg"⟩,
    ⟨"b.xml", 7, some [⟨[(1, 1)], "bye"⟩], some "b.jpg"⟩]⟩

/-! ## Helper lemmas -/

theorem lookupMeta_setMeta_self (m : IndexMeta) (p : String) (v : Nat) :
    lookupMeta (setMeta m p v) p = some v := by
  induction m with
  | nil => simp [setMeta, lookupMeta]
  | cons kv rest ih =>
    obtain ⟨k, w⟩ := kv
    by_cases h : k = p <;> simp [setMeta, lookupMeta, h, ih]

theorem lookupMeta_setMeta_other (m : IndexMeta) (p q : String) (v : Nat)
    (hne : p ≠ q) : lookupMeta (setMeta m p v) q = lookupMeta m q := by
  induction m with
  | nil => simp [setMeta, lookupMeta, hne]
  | cons kv rest ih =>
    obtain ⟨k, w⟩ := kv
    by_cases h : k = p
    · subst h
      simp [setMeta, lookupMeta, hne]
    · simp [setMeta, lookupMeta, h, ih]

/-- `passStep` in terms of the skip predicate. -/
theorem passStep_eq (meta : IndexMeta) (s : PassLoopState) (doc : ParsedDoc) :
    passStep meta s doc =
      if skipUnchanged meta doc.path doc.mtime then
        { s with new_meta := setMeta s.new_meta doc.path
                   ((lookupMeta meta doc.path).getD 0),
                 skippedDocs := s.skippedDocs + 1 }
      else
        { batch := s.batch ++ docRecords doc,
          new_meta := setMeta s.new_meta doc.path doc.mtime,
          newDocs := s.newDocs + 1,
          skippedDocs := s.skippedDocs,
          newLines := s.newLines + doc.lines.length } := by
  unfold passStep skipUnchanged
  cases h : lookupMeta meta doc.path with
  | none => simp
  | some t => by_cases hle : doc.mtime ≤ t <;> simp [hle]

theorem passLoop_batch (meta : IndexMeta) (docs : List ParsedDoc)
    (s : PassLoopState) :
    (passLoop meta s docs).batch
      = s.batch ++ (docs.filter fun d =>
          should_reindex d.path d.mtime meta).flatMap docRecords := by
  induction docs generalizing s with
  | nil => simp [passLoop]
  | cons d ds ih =>
    rw [passLoop, ih, passStep_eq]
    by_cases h : skipUnchanged meta d.path d.mtime <;>
      simp [h, should_reindex, List.filter_cons]

theorem passLoop_newDocs (meta : IndexMeta) (docs : List ParsedDoc)
    (s : PassLoopState) :
    (passLoop meta s docs).newDocs
      = s.newDocs + (docs.filter fun d =>
          should_reindex d.path d.mtime meta).length := by
  induction docs generalizing s with
  | nil => simp [passLoop]
  | cons d ds ih =>
    rw [passLoop, ih, passStep_eq]
    by_cases h : skipUnchanged meta d.path d.mtime <;>
      simp [h, should_reindex, List.filter_cons] <;> omega

theorem passLoop_skippedDocs (meta : IndexMeta) (docs : List ParsedDoc)
    (s : PassLoopState) :
    (passLoop meta s docs).skippedDocs
      = s.skippedDocs + (docs.filter fun d =>
          skipUnchanged meta d.path d.mtime).length := by
  induction docs generalizing s with
  | nil => simp [passLoop]
  | cons d ds ih =>
    rw [passLoop, ih, passStep_eq]
    by_cases h : skipUnchanged meta d.path d.mtime <;>
      simp [h, List.filter_cons] <;> omega

theorem passLoop_newLines (meta : IndexMeta) (docs : List ParsedDoc)
    (s : PassLoopState) :
    (passLoop meta s docs).newLines
      = s.newLines + ((docs.filter fun d =>
          should_reindex d.path d.mtime meta).map fun d => d.lines.length).sum := by
  induction docs generalizing s with
  | nil => simp [passLoop]
  | cons d ds ih =>
    rw [passLoop, ih, passStep_eq]
    by_cases h : skipUnchanged meta d.path d.mtime <;>
      simp [h, should_reindex, List.filter_cons] <;> omega

theorem passLoop_new_meta_notin (meta : IndexMeta) (docs : List ParsedDoc)
    (s : PassLoopState) (p : String) (h : p ∉ docs.map fun d => d.path) :
    lookupMeta (passLoop meta s docs).new_meta p = lookupMeta s.new_meta p := by
  induction docs generalizing s with
  | nil => rfl
  | cons d ds ih =>
    simp only [List.map_cons, List.mem_cons, not_or] at h
    rw [passLoop, ih _ h.2, passStep_eq]
    by_cases hs : skipUnchanged meta d.path d.mtime <;>
      simp [hs, lookupMeta_setMeta_other _ _ _ _ (fun he => h.1 he.symm)]

theorem passLoop_new_meta_mem (meta : IndexMeta) (docs : List ParsedDoc)
    (s : PassLoopState) (d : ParsedDoc) (hd : d ∈ docs)
    (hnd : (docs.map fun x => x.path).Nodup) :
    lookupMeta (passLoop meta s docs).new_meta d.path
      = some (if skipUnchanged meta d.path d.mtime
              then (lookupMeta meta d.path).getD 0 else d.mtime) := by
  induction docs generalizing s with
  | nil => cases hd
  | cons x xs ih =>
    simp only [List.map_cons, List.nodup_cons] at hnd
    rw [passLoop]
    rcases List.mem_cons.mp hd with rfl | hmem
    · rw [passLoop_new_meta_notin _ _ _ _ hnd.1, passStep_eq]
      by_cases hskip : skipUnchanged meta d.path d.mtime <;>
        simp [hskip, lookupMeta_setMeta_self]
    · exact ih _ hmem hnd.2

theorem update_index_docs_nil (ck : Bool) (meta : IndexMeta) (ix : IndexState) :
    update_index_docs ck [] meta ix = ⟨ix, meta, none, false, Outcome.normal⟩ :=
  rfl

theorem update_index_docs_false_eq (docs : List ParsedDoc) (meta : IndexMeta)
    (ix : IndexState) (hd : docs ≠ []) :
    update_index_docs false docs meta ix
      = ⟨ix, meta, none, false, Outcome.raised⟩ := by
  unfold update_index_docs
  rw [if_neg hd]
  rfl

/-- `update_index_docs` on a non-empty document list with a successful
commit, written out by the processed-document count. -/
theorem update_index_docs_true_eq (docs : List ParsedDoc) (meta : IndexMeta)
    (ix : IndexState) (hd : docs ≠ []) :
    update_index_docs true docs meta ix
      = if (passLoop meta initLoopState docs).newDocs ≠ 0 then
          ⟨applyBatch ix (passLoop meta initLoopState docs).batch,
           (passLoop meta initLoopState docs).new_meta,
           some ⟨(passLoop meta initLoopState docs).newDocs,
                 (passLoop meta initLoopState docs).skippedDocs,
                 (passLoop meta initLoopState docs).newLines⟩,
           true, Outcome.normal⟩
        else
          ⟨applyBatch ix (passLoop meta initLoopState docs).batch, meta,
           some ⟨(passLoop meta initLoopState docs).newDocs,
                 (passLoop meta initLoopState docs).skippedDocs,
                 (passLoop meta initLoopState docs).newLines⟩,
           false, Outcome.normal⟩ := by
  unfold update_index_docs
  rw [if_neg hd]
  rfl

theorem passLoop_batch_init (meta : IndexMeta) (docs : List ParsedDoc) :
    (passLoop meta initLoopState docs).batch
      = (docs.filter fun d =>
          should_reindex d.path d.mtime meta).flatMap docRecords := by
  rw [passLoop_batch]
  simp [initLoopState]

theorem passLoop_newDocs_init (meta : IndexMeta) (docs : List ParsedDoc) :
    (passLoop meta initLoopState docs).newDocs
      = (docs.filter fun d => should_reindex d.path d.mtime meta).length := by
  rw [passLoop_newDocs]
  simp [initLoopState]

theorem passLoop_skippedDocs_init (meta : IndexMeta) (docs : List ParsedDoc) :
    (passLoop meta initLoopState docs).skippedDocs
      = (docs.filter fun d => skipUnchanged meta d.path d.mtime).length := by
  rw [passLoop_skippedDocs]
  simp [initLoopState]

theorem passLoop_newLines_init (meta : IndexMeta) (docs : List ParsedDoc) :
    (passLoop meta initLoopState docs).newLines
      = ((docs.filter fun d =>
          should_reindex d.path d.mtime meta).map fun d => d.lines.length).sum := by
  rw [passLoop_newLines]
  simp [initLoopState]

/-- The skip test unpacked into its witness. -/
theorem skipUnchanged_lookup (meta : IndexMeta) (p : String) (m : Nat)
    (hs : skipUnchanged meta p m = true) :
    ∃ t, lookupMeta meta p = some t ∧ m ≤ t := by
  unfold skipUnchanged at hs
  cases h : lookupMeta meta p with
  | none => rw [h] at hs; cases hs
  | some t => rw [h] at hs; exact ⟨t, rfl, by simpa using hs⟩

/-- When the loop processed nothing, every document satisfied the skip
test. -/
theorem all_skipped_of_newDocs_zero (meta : IndexMeta) (docs : List ParsedDoc)
    (hn : (passLoop meta initLoopState docs).newDocs = 0) :
    ∀ d ∈ docs, skipUnchanged meta d.path d.mtime = true := by
  intro d hd
  have hfil : (docs.filter fun d => should_reindex d.path d.mtime meta) = [] := by
    rw [passLoop_newDocs_init] at hn
    exact List.length_eq_zero.mp hn
  cases hsk : skipUnchanged meta d.path d.mtime with
  | true => rfl
  | false =>
    exfalso
    have hmem : d ∈ docs.filter fun d => should_reindex d.path d.mtime meta := by
      rw [List.mem_filter]
      exact ⟨hd, by simp [should_reindex, hsk]⟩
    rw [hfil] at hmem
    cases hmem

/-- The persisted metadata of a successful non-empty pass maps every
document with distinct paths to its carried or refreshed time. -/
theorem update_index_docs_metaFile_lookup (docs : List ParsedDoc)
    (meta : IndexMeta) (ix : IndexState) (d : ParsedDoc) (hd : d ∈ docs)
    (hnd : (docs.map fun x => x.path).Nodup) :
    lookupMeta (update_index_docs true docs meta ix).metaFile d.path
      = some (if skipUnchanged meta d.path d.mtime
              then (lookupMeta meta d.path).getD 0 else d.mtime) := by
  have hne : docs ≠ [] := by rintro rfl; cases hd
  rw [update_index_docs_true_eq docs meta ix hne]
  by_cases hn : (passLoop meta initLoopState docs).newDocs = 0
  · rw [if_neg (by simpa using hn)]
    have hskip := all_skipped_of_newDocs_zero meta docs hn d hd
    obtain ⟨t, ht, hle⟩ := skipUnchanged_lookup meta d.path d.mtime hskip
    simp [hskip, ht]
  · rw [if_pos hn]
    exact passLoop_new_meta_mem meta docs initLoopState d hd hnd

theorem length_sha256Bytes (msg : List Nat) : (sha256Bytes msg).length = 32 := by
  simp [sha256Bytes, wordBytes, List.flatMap]

theorem length_flatMap_byteHex (bs : List Nat) :
    (bs.flatMap byteHexChars).length = 2 * bs.length := by
  induction bs with
  | nil => rfl
  | cons b rest ih => simp [List.flatMap_cons, byteHexChars, ih]; ring

theorem toHex_sha_data_length (msg : List Nat) :
    (toHex (sha256Bytes msg)).data.length = 64 := by
  show ((sha256Bytes msg).flatMap byteHexChars).length = 64
  rw [length_flatMap_byteHex, length_sha256Bytes]

/-! ## Claims -/

/-- C5: line-id derivation is a pure, deterministic, total function of
`(document_path, coords)`.  In the embedding `generate_line_id` is a total
Lean function, so it returns a result on every input; this theorem records
its closed form on all inputs, that the digest component for empty `coords`
is exactly the (well-defined, constant) SHA-256 digest of the empty string,
and that equal inputs yield equal ids. -/
theorem claim_C5_line_id_total_deterministic :
    (∀ p c, generate_line_id p c
        = p ++ "_" ++ toHex (sha256Bytes (utf8Encode (coordsStr c))))
  ∧ toHex (sha256Bytes (utf8Encode ""))
      = "e3b0c44298fc1c149afbf4c8996fb92427ae41e4649b934ca495991b7852b855"
  ∧ (∀ p, generate_line_id p []
      = p ++ "_" ++ "e3b0c44298fc1c149afbf4c8996fb92427ae41e4649b934ca495991b7852b855")
  ∧ (∀ p₁ c₁ p₂ c₂, p₁ = p₂ → c₁ = c₂ →
      generate_line_id p₁ c₁ = generate_line_id p₂ c₂) := by
  refine ⟨fun p c => rfl, by decide, fun p => ?_, ?_⟩
  · rw [generate_line_id,
      show toHex (sha256Bytes (utf8Encode (coordsStr [])))
        = "e3b0c44298fc1c149afbf4c8996fb92427ae41e4649b934ca495991b7852b855"
        from by decide]
  · intro p₁ c₁ p₂ c₂ hp hc
    rw [hp, hc]

/-- C5 witness: the determinism conjunct applied at a concrete input. -/
theorem claim_C5_witness :
    generate_line_id "doc.xml" [(0, 0)] = generate_line_id "doc.xml" [(0, 0)] :=
  claim_C5_line_id_total_deterministic.2.2.2 "doc.xml" [(0, 0)] "doc.xml" [(0, 0)]
    rfl rfl

/-- C6 counterexample: the claim states that for every document path accepted
by the builder the separator (`_`) does not appear in the path.  The builder
accepts any file whose name ends in `.xml` (src/indexer.py line 103), and
underscores are ordinary path characters, so a path like
`xml_dir/page_001.xml` is accepted and contains the separator. -/
theorem claim_C6_counterexample :
    acceptsXmlFile "xml_dir/page_001.xml" = true
  ∧ '_' ∈ "xml_dir/page_001.xml".toList := by decide

/-- C6 (amended): the id concatenates `document_path` and the digest with
`"_"`, a character that can occur in document paths; the id nevertheless
splits unambiguously back into path and digest because the digest is a
fixed-length 64-character suffix: equal ids force equal paths and equal
digest strings. -/
theorem claim_C6_amended_id_split_unambiguous (p₁ p₂ : String)
    (c₁ c₂ : List (Int × Int))
    (h : generate_line_id p₁ c₁ = generate_line_id p₂ c₂) :
    p₁ = p₂ ∧ toHex (sha256Bytes (utf8Encode (coordsStr c₁)))
        = toHex (sha256Bytes (utf8Encode (coordsStr c₂))) := by
  have h' := congrArg String.data h
  rw [generate_line_id, generate_line_id, String.data_append, String.data_append,
    String.data_append, String.data_append] at h'
  have hlen : (toHex (sha256Bytes (utf8Encode (coordsStr c₁)))).data.length
      = (toHex (sha256Bytes (utf8Encode (coordsStr c₂)))).data.length := by
    rw [toHex_sha_data_length, toHex_sha_data_length]
  obtain ⟨h₁, h₂⟩ := List.append_inj' h' hlen
  obtain ⟨h₃, -⟩ := List.append_inj' h₁ rfl
  exact ⟨String.ext h₃, String.ext h₂⟩

/-- C6 witness: the amended theorem applied at a concrete input. -/
theorem claim_C6_witness :
    "a.xml" = "a.xml" ∧ toHex (sha256Bytes (utf8Encode (coordsStr [])))
        = toHex (sha256Bytes (utf8Encode (coordsStr []))) :=
  claim_C6_amended_id_split_unambiguous "a.xml" "a.xml" [] [] rfl

/-- C10: with an empty matched-terms list, `highlight_matched_terms` returns
the input completely unchanged — in particular it performs no HTML escaping
(the same input with a non-empty terms list does get escaped, as the last
two conjuncts witness). -/
theorem claim_C10_empty_terms_identity :
    (∀ text : String, highlight_matched_terms text [] = text)
  ∧ highlight_matched_terms "a<b & c" [] = "a<b & c"
  ∧ pyHtmlEscape "a<b & c" ≠ "a<b & c"
  ∧ highlight_matched_terms "a<b & c" ["b"] ≠ "a<b & c" :=
  ⟨fun _ => rfl, rfl, by decide, by decide⟩

/-- C4 counterexample: the claim states that saving the metadata writes to a
temporary location and renames it into place, so no reader ever observes a
partially written file.  `save_index_meta` (src/indexer.py lines 37-41)
instead opens the target file itself with mode `"w"` — truncating it — and
writes into it: its operation trace contains no temp write and no rename,
and right after the `open` a reader observes a truncated metadata file that
holds neither the old nor the new mapping. -/
theorem claim_C4_counterexample :
    MetaFsOp.renameTemp ∉ save_index_meta_ops [("a.xml", 2)]
  ∧ MetaFsOp.writeTemp [("a.xml", 2)] ∉ save_index_meta_ops [("a.xml", 2)]
  ∧ MetaFs.mk MetaFileState.truncated MetaFileState.absent
      ∈ metaStatesDuring ⟨MetaFileState.full [("a.xml", 1)], MetaFileState.absent⟩
          (save_index_meta_ops [("a.xml", 2)]) := by decide

/-- C4 (amended): saving the metadata opens the target file for writing —
truncating it in place — and then writes the mapping, rather than writing a
temporary file and renaming it, so a concurrent reader can observe a
truncated file (first conjunct exhibits the full state trace; the second
shows the spec's atomic-replace sequence would expose only the old or the
new content).  The true remainder of the claim: the file is rewritten in
full exactly at the end of a successful pass that added or updated at least
one document. -/
theorem claim_C4_amended_save_in_place :
    (∀ (m : IndexMeta) (init : MetaFs),
      metaStatesDuring init (save_index_meta_ops m)
        = [init, ⟨MetaFileState.truncated, init.temp⟩,
           ⟨MetaFileState.full m, init.temp⟩])
  ∧ (∀ (m : IndexMeta) (init : MetaFs),
      (metaStatesDuring init (saveAtomicOps m)).map MetaFs.target
        = [init.target, init.target, MetaFileState.full m])
  ∧ (∀ (ck : Bool) (docs : List ParsedDoc) (meta : IndexMeta) (ix : IndexState),
      (update_index_docs ck docs meta ix).metaSaved = true
        ↔ ck = true ∧ ∃ rep, (update_index_docs ck docs meta ix).report = some rep
            ∧ rep.newDocs ≠ 0) := by
  refine ⟨fun m init => rfl, fun m init => rfl, fun ck docs meta ix => ?_⟩
  unfold update_index_docs
  by_cases hd : docs = []
  · simp [hd]
  · cases ck with
    | false => simp [hd]
    | true =>
      by_cases hn : (passLoop meta initLoopState docs).newDocs = 0 <;>
        simp [hd, hn]

/-- C2 counterexample: the claim states that a document whose recorded
modification time is at least the current one is neither re-parsed nor
re-upserted.  It is not re-upserted (the index stays empty and the report
counts it as skipped), but it IS re-parsed: `get_lines_from_documents`
invokes `parse_pagexml` on every discovered `.xml` file (line 129) before
the metadata is even loaded, so the skipped document's path appears among
the parsed paths. -/
theorem claim_C2_counterexample :
    skipUnchanged [("doc_a.xml", 9)] "doc_a.xml" 5 = true
  ∧ (update_index true
        ⟨true, true, [⟨"doc_a.xml", 5, some [⟨[(0, 0)], "hi"⟩], some "a.jpg"⟩]⟩
        [("doc_a.xml", 9)] []).parsedPaths = ["doc_a.xml"]
  ∧ (update_index true
        ⟨true, true, [⟨"doc_a.xml", 5, some [⟨[(0, 0)], "hi"⟩], some "a.jpg"⟩]⟩
        [("doc_a.xml", 9)] []).index = []
  ∧ (update_index true
        ⟨true, true, [⟨"doc_a.xml", 5, some [⟨[(0, 0)], "hi"⟩], some "a.jpg"⟩]⟩
        [("doc_a.xml", 9)] []).report = some ⟨0, 1, 0⟩ := by decide

/-- C2 (amended): the re-index decision is true iff the path is absent from
the metadata or the recorded time is strictly less than the current time;
the pass upserts into the writer exactly the lines of the documents that
decision selects (so a skipped document contributes no upserts); but every
discovered document is parsed during gathering regardless of metadata, so a
skipped document is still re-parsed. -/
theorem claim_C2_amended_skip_correctness :
    (∀ (p : String) (m : Nat) (meta : IndexMeta),
      should_reindex p m meta = true
        ↔ lookupMeta meta p = none
          ∨ ∃ t, lookupMeta meta p = some t ∧ t < m)
  ∧ (∀ (ck : Bool) (docs : List ParsedDoc) (meta : IndexMeta) (ix : IndexState),
      (update_index_docs ck docs meta ix).index
        = if ck then
            applyBatch ix ((docs.filter fun d =>
              should_reindex d.path d.mtime meta).flatMap docRecords)
          else ix)
  ∧ (∀ (c : Corpus) (ck : Bool) (meta : IndexMeta) (ix : IndexState),
      c.rootIsDir = true → c.imageDirOk = true → c.files ≠ [] →
      (update_index ck c meta ix).parsedPaths = c.files.map fun f => f.path) := by
  refine ⟨fun p m meta => ?_, fun ck docs meta ix => ?_, fun c ck meta ix h1 h2 h3 => ?_⟩
  · cases h : lookupMeta meta p with
    | none => simp [should_reindex, skipUnchanged, h]
    | some t =>
      simp only [should_reindex, skipUnchanged, h, Bool.not_eq_true',
        decide_eq_false_iff_not]
      constructor
      · intro hle
        exact Or.inr ⟨t, rfl, by omega⟩
      · rintro (hc | ⟨t', ht', hlt⟩)
        · cases hc
        · cases ht'
          omega
  · by_cases hd : docs = []
    · subst hd
      cases ck <;> simp [update_index_docs_nil, applyBatch]
    · cases ck with
      | false => rw [update_index_docs_false_eq docs meta ix hd]; simp
      | true =>
        rw [update_index_docs_true_eq docs meta ix hd]
        by_cases hn : (passLoop meta initLoopState docs).newDocs ≠ 0
        · rw [if_pos hn]
          simp [passLoop_batch_init]
        · rw [if_neg hn]
          simp [passLoop_batch_init]
  · have hg : get_lines_from_documents c
        = (some (c.files.filterMap sourceToDoc), c.files.map fun f => f.path,
           false) := by
      simp [get_lines_from_documents, h1, h2, h3]
    unfold update_index
    rw [hg]

/-- C2 witness: the parse conjunct applied at a concrete corpus. -/
theorem claim_C2_witness :
    (update_index true sampleCorpus [] []).parsedPaths = ["a.xml", "b.xml"] := by
  rw [claim_C2_amended_skip_correctness.2.2 sampleCorpus true [] []
    rfl rfl (by decide)]
  decide

/-- C3: metadata invariant of a build pass over the gathered documents (with
distinct paths, as a file-system scan yields): a skipped document's previous
entry is carried into the persisted metadata unchanged; a processed
document's entry becomes its current modification time once the commit
succeeded; when the commit fails the metadata file is untouched (the update
happens only after a successful write); and after a successful commit the
persisted metadata covers every gathered document, processed or
carried-forward. -/
theorem claim_C3_metadata_invariant (ck : Bool) (docs : List ParsedDoc)
    (meta : IndexMeta) (ix : IndexState)
    (hnd : (docs.map fun d => d.path).Nodup) :
    (∀ d ∈ docs, ∀ t, lookupMeta meta d.path = some t → d.mtime ≤ t →
      lookupMeta (update_index_docs ck docs meta ix).metaFile d.path = some t)
  ∧ (∀ d ∈ docs, should_reindex d.path d.mtime meta = true → ck = true →
      lookupMeta (update_index_docs ck docs meta ix).metaFile d.path
        = some d.mtime)
  ∧ (ck = false → (update_index_docs ck docs meta ix).metaFile = meta
      ∧ (update_index_docs ck docs meta ix).metaSaved = false)
  ∧ (ck = true → ∀ d ∈ docs,
      (lookupMeta (update_index_docs ck docs meta ix).metaFile d.path).isSome) := by
  refine ⟨fun d hd t ht hle => ?_, fun d hd hre hck => ?_, fun hck => ?_,
    fun hck d hd => ?_⟩
  · have hne : docs ≠ [] := by rintro rfl; cases hd
    cases ck with
    | false =>
      rw [update_index_docs_false_eq docs meta ix hne]
      exact ht
    | true =>
      have hskip : skipUnchanged meta d.path d.mtime = true := by
        unfold skipUnchanged
        rw [ht]
        simpa using hle
      rw [update_index_docs_metaFile_lookup docs meta ix d hd hnd, hskip, ht]
      simp
  · subst hck
    have hskip : skipUnchanged meta d.path d.mtime = false := by
      unfold should_reindex at hre
      simpa using hre
    rw [update_index_docs_metaFile_lookup docs meta ix d hd hnd, hskip]
    simp
  · subst hck
    by_cases hd0 : docs = []
    · subst hd0
      rw [update_index_docs_nil]
      exact ⟨rfl, rfl⟩
    · rw [update_index_docs_false_eq docs meta ix hd0]
      exact ⟨rfl, rfl⟩
  · subst hck
    rw [update_index_docs_metaFile_lookup docs meta ix d hd hnd]
    simp

/-- C3 witness: the invariant conjuncts applied at a concrete pass with one
skipped and one processed document. -/
theorem claim_C3_witness :
    lookupMeta (update_index_docs true
        [⟨"a.xml", "a.jpg", [⟨[(0, 0)], "hi"⟩], 5⟩,
         ⟨"b.xml", "b.jpg", [⟨[(1, 1)], "x"⟩], 7⟩]
        [("a.xml", 9)] []).metaFile "a.xml" = some 9
  ∧ lookupMeta (update_index_docs true
        [⟨"a.xml", "a.jpg", [⟨[(0, 0)], "hi"⟩], 5⟩,
         ⟨"b.xml", "b.jpg", [⟨[(1, 1)], "x"⟩], 7⟩]
        [("a.xml", 9)] []).metaFile "b.xml" = some 7 := by
  have H := claim_C3_metadata_invariant true
    [⟨"a.xml", "a.jpg", [⟨[(0, 0)], "hi"⟩], 5⟩,
     ⟨"b.xml", "b.jpg", [⟨[(1, 1)], "x"⟩], 7⟩]
    [("a.xml", 9)] [] (by decide)
  exact ⟨H.1 ⟨"a.xml", "a.jpg", [⟨[(0, 0)], "hi"⟩], 5⟩ (by decide) 9
      (by decide) (by decide),
    H.2.1 ⟨"b.xml", "b.jpg", [⟨[(1, 1)], "x"⟩], 7⟩ (by decide) (by decide) rfl⟩

/-- Core of C1: a second pass of the indexing loop over the same document
list (same paths, same modification times) leaves the stored index exactly
as the first pass left it and reports zero documents added or updated (every
document is counted as skipped). -/
theorem update_index_docs_second_pass (docs : List ParsedDoc)
    (meta0 : IndexMeta) (ix0 : IndexState)
    (hnd : (docs.map fun d => d.path).Nodup) :
    (update_index_docs true docs (update_index_docs true docs meta0 ix0).metaFile
        (update_index_docs true docs meta0 ix0).index).index
      = (update_index_docs true docs meta0 ix0).index
  ∧ (update_index_docs true docs (update_index_docs true docs meta0 ix0).metaFile
        (update_index_docs true docs meta0 ix0).index).report
      = if docs.isEmpty then none else some ⟨0, docs.length, 0⟩ := by
  by_cases hd : docs = []
  · subst hd
    simp [update_index_docs_nil]
  · -- every document satisfies the skip test against the metadata the first
    -- pass persisted
    have hall : ∀ d ∈ docs,
        skipUnchanged (update_index_docs true docs meta0 ix0).metaFile
          d.path d.mtime = true := by
      intro d hdm
      have hlook := update_index_docs_metaFile_lookup docs meta0 ix0 d hdm hnd
      unfold skipUnchanged
      rw [hlook]
      by_cases hskip : skipUnchanged meta0 d.path d.mtime
      · obtain ⟨t, ht, hle⟩ := skipUnchanged_lookup meta0 d.path d.mtime hskip
        rw [if_pos hskip, ht]
        simpa using hle
      · rw [if_neg hskip]
        simp
    have hfil2 : (docs.filter fun d => should_reindex d.path d.mtime
        (update_index_docs true docs meta0 ix0).metaFile) = [] := by
      rw [List.filter_eq_nil_iff]
      intro d hdm
      simp [should_reindex, hall d hdm]
    have hfil2' : (docs.filter fun d => skipUnchanged
        (update_index_docs true docs meta0 ix0).metaFile d.path d.mtime)
        = docs :=
      List.filter_eq_self.mpr (fun d hdm => hall d hdm)
    have hzero : (passLoop (update_index_docs true docs meta0 ix0).metaFile
        initLoopState docs).newDocs = 0 := by
      rw [passLoop_newDocs_init, hfil2]
      rfl
    rw [update_index_docs_true_eq docs
      (update_index_docs true docs meta0 ix0).metaFile
      (update_index_docs true docs meta0 ix0).index hd]
    rw [if_neg (by simpa using hzero)]
    constructor
    · show applyBatch (update_index_docs true docs meta0 ix0).index _ = _
      rw [passLoop_batch_init, hfil2]
      rfl
    · show some _ = _
      rw [hzero, passLoop_skippedDocs_init, passLoop_newLines_init, hfil2,
        hfil2']
      simp [hd]

/-- C1: indexing is idempotent.  Running `update_index` twice over the same
unchanged corpus (same snapshot: same files, parse results and modification
times, with distinct paths as a scan yields), with the second pass reading
the index and metadata the first pass left behind, keeps the stored index —
hence its set of line ids and contents — exactly identical, and the second
pass reports zero documents added or updated (all documents counted
skipped; `none` is the early `No documents to index` return, where nothing
was stored by either pass). -/
theorem claim_C1_reindex_idempotent (c : Corpus) (meta0 : IndexMeta)
    (ix0 : IndexState)
    (hnd : (((get_lines_from_documents c).1.getD []).map fun d => d.path).Nodup) :
    (update_index true c (update_index true c meta0 ix0).metaFile
        (update_index true c meta0 ix0).index).index
      = (update_index true c meta0 ix0).index
  ∧ (update_index true c (update_index true c meta0 ix0).metaFile
        (update_index true c meta0 ix0).index).report
      = match (get_lines_from_documents c).1 with
        | none => none
        | some docs => if docs.isEmpty then none
            else some ⟨0, docs.length, 0⟩ := by
  rcases hq : get_lines_from_documents c with ⟨docsQ, pp, ce⟩
  cases docsQ with
  | none =>
    unfold update_index
    rw [hq]
    exact ⟨rfl, rfl⟩
  | some docs =>
    rw [hq] at hnd
    simp only [Option.getD_some] at hnd
    have := update_index_docs_second_pass docs meta0 ix0 hnd
    unfold update_index
    rw [hq]
    exact this

/-- C1 witness: both passes evaluated on a concrete two-document corpus. -/
theorem claim_C1_witness :
    (update_index true sampleCorpus (update_index true sampleCorpus [] []).metaFile
        (update_index true sampleCorpus [] []).index).index
      = (update_index true sampleCorpus [] []).index
  ∧ (update_index true sampleCorpus (update_index true sampleCorpus [] []).metaFile
        (update_index true sampleCorpus [] []).index).report
      = match (get_lines_from_documents sampleCorpus).1 with
        | none => none
        | some docs => if docs.isEmpty then none
            else some ⟨0, docs.length, 0⟩ :=
  claim_C1_reindex_idempotent sampleCorpus [] [] (by decide)

/-- C7 counterexample: the claim states that with a nonexistent document
root the build pass fails with a `ConfigError` reported to the caller.  In
the source, `get_lines_from_documents` logs an error and returns `None`, and
`update_index` then returns normally (line 166): the pass completes with a
normal outcome, no exception and nothing indexed. -/
theorem claim_C7_counterexample :
    (update_index true
        ⟨false, true, [⟨"a.xml", 5, some [⟨[(0, 0)], "hi"⟩], some "a.jpg"⟩]⟩
        [("b.xml", 3)] []).outcome = Outcome.normal
  ∧ (update_index true
        ⟨false, true, [⟨"a.xml", 5, some [⟨[(0, 0)], "hi"⟩], some "a.jpg"⟩]⟩
        [("b.xml", 3)] []).report = none := by decide

/-- C7 (amended): when the document root does not exist (or is not a
directory), the pass logs an error (`configErrorLogged`), performs no
parsing and no indexing, leaves the index and the persisted metadata
unchanged, and returns normally to the caller — no error value or exception
reaches the caller. -/
theorem claim_C7_amended_bad_root_logs_and_returns (ck : Bool) (c : Corpus)
    (meta : IndexMeta) (ix : IndexState) (h : c.rootIsDir = false) :
    update_index ck c meta ix
      = ⟨ix, meta, none, false, Outcome.normal, true, []⟩ := by
  unfold update_index get_lines_from_documents
  rw [h]
  rfl

/-- C7 witness: the amended theorem applied at a concrete corpus. -/
theorem claim_C7_witness :
    update_index true ⟨false, true, []⟩ [("m.xml", 1)] []
      = ⟨[], [("m.xml", 1)], none, false, Outcome.normal, true, []⟩ :=
  claim_C7_amended_bad_root_logs_and_returns true ⟨false, true, []⟩
    [("m.xml", 1)] [] rfl

/-! ## Grouping lemmas (toward C9) -/

theorem extendGroup_nil (g : DocumentGroup) : extendGroup g [] = g := by
  cases g
  simp [extendGroup]

theorem extendGroup_cons (g : DocumentGroup) (x : Hit) (fl : List Hit) :
    extendGroup g (x :: fl) = extendGroup (pushHit g x) fl := by
  cases g
  simp [extendGroup, pushHit]
  omega

theorem lookupGroup_updateGroup_self (m : GroupMap) (p : String)
    (f : DocumentGroup → DocumentGroup) :
    lookupGroup (updateGroup m p f) p = (lookupGroup m p).map f := by
  induction m with
  | nil => rfl
  | cons kv rest ih =>
    obtain ⟨k, g⟩ := kv
    by_cases h : k = p <;> simp [updateGroup, lookupGroup, h, ih]

theorem lookupGroup_updateGroup_other (m : GroupMap) (p q : String)
    (f : DocumentGroup → DocumentGroup) (h : q ≠ p) :
    lookupGroup (updateGroup m p f) q = lookupGroup m q := by
  induction m with
  | nil => rfl
  | cons kv rest ih =>
    obtain ⟨k, g⟩ := kv
    show lookupGroup (if k = p then _ else _) q = _
    by_cases hk : k = p
    · rw [if_pos hk]
      have hkq : ¬k = q := fun he => h (he ▸ hk)
      show (if k = q then _ else _) = if k = q then _ else _
      rw [if_neg hkq, if_neg hkq]
    · rw [if_neg hk]
      show (if k = q then _ else _) = if k = q then _ else _
      by_cases hq : k = q
      · rw [if_pos hq, if_pos hq]
      · rw [if_neg hq, if_neg hq, ih]

theorem lookupGroup_append_single (m : GroupMap) (k : String)
    (g : DocumentGroup) (q : String) :
    lookupGroup (m ++ [(k, g)]) q
      = match lookupGroup m q with
        | some g' => some g'
        | none => if k = q then some g else none := by
  induction m with
  | nil => simp [lookupGroup]
  | cons kv rest ih =>
    obtain ⟨k', g'⟩ := kv
    by_cases h : k' = q <;> simp [lookupGroup, h, ih]

theorem updateGroup_keys (m : GroupMap) (p : String)
    (f : DocumentGroup → DocumentGroup) :
    (updateGroup m p f).map Prod.fst = m.map Prod.fst := by
  induction m with
  | nil => rfl
  | cons kv rest ih =>
    obtain ⟨k, g⟩ := kv
    by_cases h : k = p <;> simp [updateGroup, h, ih]

theorem containsGroup_eq_keys_contains (m : GroupMap) (p : String) :
    containsGroup m p = (m.map Prod.fst).contains p := by
  induction m with
  | nil => rfl
  | cons kv rest ih =>
    obtain ⟨k, g⟩ := kv
    show (lookupGroup ((k, g) :: rest) p).isSome = _
    by_cases h : k = p
    · simp [lookupGroup, h, List.contains_cons]
    · have hpk : (p == k) = false :=
        beq_eq_false_iff_ne.mpr (fun he => h he.symm)
      simp only [lookupGroup, if_neg h, List.map_cons, List.contains_cons,
        hpk, Bool.false_or]
      exact ih

theorem groupStep_keys (acc : GroupMap) (line : Hit) :
    (groupStep acc line).map Prod.fst
      = if (acc.map Prod.fst).contains line.doc_path then acc.map Prod.fst
        else acc.map Prod.fst ++ [line.doc_path] := by
  unfold groupStep
  rw [← containsGroup_eq_keys_contains]
  by_cases h : containsGroup acc line.doc_path <;>
    simp [h, updateGroup_keys]

theorem groupFold_keys (ls : List Hit) (acc : GroupMap) :
    (ls.foldl groupStep acc).map Prod.fst
      = firstSeenFrom (acc.map Prod.fst) (ls.map fun h => h.doc_path) := by
  induction ls generalizing acc with
  | nil => rfl
  | cons x ls' ih =>
    rw [List.foldl_cons, ih, groupStep_keys, List.map_cons, firstSeenFrom]

theorem firstSeenFrom_nodup (ps : List String) (seen : List String)
    (h : seen.Nodup) : (firstSeenFrom seen ps).Nodup := by
  induction ps generalizing seen with
  | nil => exact h
  | cons p ps' ih =>
    rw [firstSeenFrom]
    by_cases hc : seen.contains p
    · rw [if_pos hc]
      exact ih seen h
    · rw [if_neg hc]
      refine ih _ ?_
      have hnm : p ∉ seen := by
        simpa using hc
      simp [List.nodup_append, h, hnm]

theorem lookupGroup_groupStep_self (acc : GroupMap) (line : Hit) :
    lookupGroup (groupStep acc line) line.doc_path
      = some (pushHit
          ((lookupGroup acc line.doc_path).getD ⟨line.image_path, [], 0⟩)
          line) := by
  unfold groupStep containsGroup
  cases h : lookupGroup acc line.doc_path with
  | some g => simp [h, lookupGroup_updateGroup_self]
  | none =>
    simp only [h, Option.isSome_none, Bool.false_eq_true, if_false,
      Option.getD_none]
    rw [lookupGroup_updateGroup_self, lookupGroup_append_single, h]
    simp

theorem lookupGroup_groupStep_other (acc : GroupMap) (line : Hit) (q : String)
    (h : q ≠ line.doc_path) :
    lookupGroup (groupStep acc line) q = lookupGroup acc q := by
  unfold groupStep
  by_cases hc : containsGroup acc line.doc_path
  · simp [hc, lookupGroup_updateGroup_other _ _ _ _ h]
  · simp only [hc, Bool.false_eq_true, if_false]
    rw [lookupGroup_updateGroup_other _ _ _ _ h, lookupGroup_append_single]
    cases hq : lookupGroup acc q with
    | some g => rfl
    | none =>
      show (if line.doc_path = q then _ else none) = (none : Option DocumentGroup)
      rw [if_neg (fun he => h he.symm)]

theorem lookupGroup_groupFold (ls : List Hit) (acc : GroupMap) (q : String) :
    lookupGroup (ls.foldl groupStep acc) q
      = match lookupGroup acc q with
        | some g => some (extendGroup g (ls.filter fun h => h.doc_path == q))
        | none =>
          match ls.filter (fun h => h.doc_path == q) with
          | [] => none
          | h :: t => some (extendGroup ⟨h.image_path, [], 0⟩ (h :: t)) := by
  induction ls generalizing acc with
  | nil =>
    cases h : lookupGroup acc q with
    | some g => simp [h, extendGroup_nil]
    | none => simp [h]
  | cons x ls' ih =>
    rw [List.foldl_cons, ih]
    by_cases hq : x.doc_path = q
    · subst hq
      rw [lookupGroup_groupStep_self]
      cases h : lookupGroup acc x.doc_path with
      | some g =>
        simp only [h, Option.getD_some, List.filter_cons]
        rw [if_pos (by simp : (x.doc_path == x.doc_path) = true),
          extendGroup_cons]
      | none =>
        simp only [h, Option.getD_none, List.filter_cons]
        rw [if_pos (by simp : (x.doc_path == x.doc_path) = true)]
        show some _ = some (extendGroup ⟨x.image_path, [], 0⟩
          (x :: List.filter (fun h => h.doc_path == x.doc_path) ls'))
        rw [extendGroup_cons]
    · rw [lookupGroup_groupStep_other acc x q (fun he => hq he.symm)]
      have hfx : (List.filter (fun h => h.doc_path == q) (x :: ls'))
          = List.filter (fun h => h.doc_path == q) ls' := by
        simp [List.filter_cons, hq]
      rw [hfx]

theorem insertDocDesc_perm (x : String × DocumentGroup) (l : GroupMap) :
    (insertDocDesc x l).Perm (x :: l) := by
  induction l with
  | nil => exact List.Perm.refl _
  | cons y ys ih =>
    rw [insertDocDesc]
    by_cases h : x.2.num_lines < y.2.num_lines
    · rw [if_pos h]
      exact (ih.cons y).trans (List.Perm.swap x y ys)
    · rw [if_neg h]

theorem sortDocsByNumLines_perm (l : GroupMap) :
    (sortDocsByNumLines l).Perm l := by
  induction l with
  | nil => exact List.Perm.refl _
  | cons x xs ih =>
    exact (insertDocDesc_perm x (sortDocsByNumLines xs)).trans (ih.cons x)

theorem insertDocDesc_sorted (x : String × DocumentGroup) (l : GroupMap)
    (h : List.Pairwise (fun a b => b.2.num_lines ≤ a.2.num_lines) l) :
    List.Pairwise (fun a b => b.2.num_lines ≤ a.2.num_lines)
      (insertDocDesc x l) := by
  induction l with
  | nil => simp [insertDocDesc]
  | cons y ys ih =>
    rw [List.pairwise_cons] at h
    rw [insertDocDesc]
    by_cases hlt : x.2.num_lines < y.2.num_lines
    · rw [if_pos hlt]
      rw [List.pairwise_cons]
      refine ⟨fun b hb => ?_, ih h.2⟩
      rcases List.mem_cons.mp ((insertDocDesc_perm x ys).mem_iff.mp hb)
        with rfl | hbys
      · omega
      · exact h.1 b hbys
    · rw [if_neg hlt]
      rw [List.pairwise_cons]
      refine ⟨fun b hb => ?_, List.pairwise_cons.mpr h⟩
      rcases List.mem_cons.mp hb with rfl | hbys
      · omega
      · have := h.1 b hbys
        omega

theorem sortDocsByNumLines_sorted (l : GroupMap) :
    List.Pairwise (fun a b => b.2.num_lines ≤ a.2.num_lines)
      (sortDocsByNumLines l) := by
  induction l with
  | nil => simp [sortDocsByNumLines]
  | cons x xs ih => exact insertDocDesc_sorted x _ ih

theorem insertDocDesc_filter_eq (x : String × DocumentGroup) (l : GroupMap)
    (c : Nat) (hx : x.2.num_lines = c) :
    (insertDocDesc x l).filter (fun e => e.2.num_lines == c)
      = x :: l.filter (fun e => e.2.num_lines == c) := by
  induction l with
  | nil => simp [insertDocDesc, List.filter_cons, hx]
  | cons y ys ih =>
    rw [insertDocDesc]
    by_cases hlt : x.2.num_lines < y.2.num_lines
    · rw [if_pos hlt]
      have hy : (y.2.num_lines == c) = false := by
        simp only [beq_eq_false_iff_ne, ne_eq]
        omega
      simp [List.filter_cons, hy, ih]
    · rw [if_neg hlt]
      simp [List.filter_cons, hx]

theorem insertDocDesc_filter_ne (x : String × DocumentGroup) (l : GroupMap)
    (c : Nat) (hx : x.2.num_lines ≠ c) :
    (insertDocDesc x l).filter (fun e => e.2.num_lines == c)
      = l.filter (fun e => e.2.num_lines == c) := by
  induction l with
  | nil => simp [insertDocDesc, List.filter_cons, hx]
  | cons y ys ih =>
    rw [insertDocDesc]
    by_cases hlt : x.2.num_lines < y.2.num_lines
    · rw [if_pos hlt]
      simp [List.filter_cons, ih]
    · rw [if_neg hlt]
      simp [List.filter_cons, hx]

theorem sortDocsByNumLines_filter (l : GroupMap) (c : Nat) :
    (sortDocsByNumLines l).filter (fun e => e.2.num_lines == c)
      = l.filter (fun e => e.2.num_lines == c) := by
  induction l with
  | nil => rfl
  | cons x xs ih =>
    rw [sortDocsByNumLines]
    by_cases hx : x.2.num_lines = c
    · rw [insertDocDesc_filter_eq x _ c hx, ih, List.filter_cons]
      simp [hx]
    · rw [insertDocDesc_filter_ne x _ c hx, ih, List.filter_cons]
      simp [hx]

/-- C9: grouping and presentation ordering.  `group_lines_by_document`
produces one entry per distinct document path (distinct keys, in first-seen
order); the entry for a path holds exactly that document's hits in their
original order, with `num_lines` equal to their number and `image_path`
taken from the first of them; and the presentation ordering is a stable sort
by `num_lines` descending — a permutation of the grouped entries that is
sorted by descending count and preserves the original relative order within
every tie class. -/
theorem claim_C9_grouping_and_ordering (hits : List Hit) :
    ((group_lines_by_document hits).map Prod.fst).Nodup
  ∧ (group_lines_by_document hits).map Prod.fst
      = firstSeenFrom [] (hits.map fun h => h.doc_path)
  ∧ (∀ q : String, lookupGroup (group_lines_by_document hits) q
      = match hits.filter (fun h => h.doc_path == q) with
        | [] => none
        | h :: t => some ⟨h.image_path, h :: t, (h :: t).length⟩)
  ∧ (sortDocsByNumLines (group_lines_by_document hits)).Perm
      (group_lines_by_document hits)
  ∧ List.Pairwise (fun a b => b.2.num_lines ≤ a.2.num_lines)
      (sortDocsByNumLines (group_lines_by_document hits))
  ∧ (∀ c : Nat, (sortDocsByNumLines (group_lines_by_document hits)).filter
        (fun e => e.2.num_lines == c)
      = (group_lines_by_document hits).filter
          (fun e => e.2.num_lines == c)) := by
  have hkeys : (group_lines_by_document hits).map Prod.fst
      = firstSeenFrom [] (hits.map fun h => h.doc_path) := by
    unfold group_lines_by_document
    simpa using groupFold_keys hits []
  refine ⟨?_, hkeys, fun q => ?_, sortDocsByNumLines_perm _,
    sortDocsByNumLines_sorted _, fun c => sortDocsByNumLines_filter _ c⟩
  · rw [hkeys]
    exact firstSeenFrom_nodup _ [] List.nodup_nil
  · unfold group_lines_by_document
    rw [lookupGroup_groupFold]
    simp only [lookupGroup]
    cases hf : hits.filter (fun h => h.doc_path == q) with
    | nil => rfl
    | cons h t => simp [extendGroup]

/-! ## Highlighting lemmas (toward C8) -/

theorem ciStartsWith_length_le (t cs : List Char)
    (h : ciStartsWith t cs = true) : t.length ≤ cs.length := by
  induction t generalizing cs with
  | nil => simp
  | cons a ts ih =>
    cases cs with
    | nil => cases h
    | cons b cs' =>
      simp only [ciStartsWith, Bool.and_eq_true] at h
      have := ih cs' h.2
      simp only [List.length_cons]
      omega

theorem ciStartsWith_take_aux (t cs : List Char)
    (h : ciStartsWith t cs = true) :
    ciStartsWith t (cs.take t.length) = true := by
  induction t generalizing cs with
  | nil => rfl
  | cons a ts ih =>
    cases cs with
    | nil => cases h
    | cons b cs' =>
      simp only [ciStartsWith, Bool.and_eq_true] at h
      simp only [List.length_cons, List.take_succ_cons, ciStartsWith,
        Bool.and_eq_true]
      exact ⟨h.1, ih cs' h.2⟩

theorem ciEqChars_take (t cs : List Char) (h : ciStartsWith t cs = true) :
    ciEqChars (cs.take t.length) t = true := by
  unfold ciEqChars
  rw [List.length_take, Nat.min_eq_left (ciStartsWith_length_le t cs h)]
  simp only [beq_self_eq_true, Bool.true_and]
  exact ciStartsWith_take_aux t cs h

theorem matchLen_spec (pw : Bool) (t cs : List Char) (n : Nat)
    (h : matchLen pw t cs = some n) :
    n = t.length ∧ ciStartsWith t cs = true := by
  unfold matchLen at h
  by_cases hci : ciStartsWith t cs
  · rw [if_pos hci] at h
    split at h
    · exact ⟨(Option.some.inj h).symm, hci⟩
    · cases h
  · rw [if_neg hci] at h
    cases h

theorem findMatch_spec (pw : Bool) (ts : List (List Char)) (cs : List Char)
    (n : Nat) (h : findMatch pw ts cs = some n) :
    ∃ t ∈ ts, matchLen pw t cs = some n := by
  induction ts with
  | nil => cases h
  | cons t rest ih =>
    unfold findMatch at h
    cases hm : matchLen pw t cs with
    | some m =>
      rw [hm] at h
      injection h with h'
      exact ⟨t, by simp, by rw [hm, h']⟩
    | none =>
      rw [hm] at h
      obtain ⟨t', ht', hm'⟩ := ih h
      exact ⟨t', by simp [ht'], hm'⟩

theorem subSegments_nil_join (ts : List (List Char)) (fuel : Nat) (pw : Bool) :
    (subSegments ts fuel pw []).flatMap Prod.snd = [] := by
  by_cases h : (findMatch pw ts []).isSome <;> simp [subSegments, h]

theorem subSegments_join (ts : List (List Char)) (fuel : Nat) (pw : Bool)
    (cs : List Char) (hf : cs.length ≤ fuel) :
    (subSegments ts fuel pw cs).flatMap Prod.snd = cs := by
  induction fuel generalizing pw cs with
  | zero =>
    have h0 : cs = [] :=
      List.length_eq_zero.mp (Nat.le_zero.mp hf)
    subst h0
    exact subSegments_nil_join ts 0 pw
  | succ fuel ih =>
    cases cs with
    | nil => exact subSegments_nil_join ts (fuel + 1) pw
    | cons c cs' =>
      simp only [subSegments]
      cases hm : findMatch pw ts (c :: cs') with
      | none =>
        simp only [List.flatMap_cons]
        rw [ih (isWordChar c) cs' (by simpa using Nat.le_of_succ_le_succ hf)]
        rfl
      | some n =>
        cases n with
        | zero =>
          simp only [List.flatMap_cons]
          rw [ih (isWordChar c) cs' (by simpa using Nat.le_of_succ_le_succ hf)]
          rfl
        | succ m =>
          simp only [List.flatMap_cons]
          have hlen2 : ((c :: cs').drop (m + 1)).length ≤ fuel := by
            simp only [List.drop_succ_cons, List.length_drop,
              List.length_cons] at hf ⊢
            omega
          rw [ih (lastWordStatus pw ((c :: cs').take (m + 1)))
            ((c :: cs').drop (m + 1)) hlen2]
          exact List.take_append_drop (m + 1) (c :: cs')

theorem subSegments_nil_sound (ts : List (List Char)) (fuel : Nat) (pw : Bool) :
    ∀ seg ∈ subSegments ts fuel pw [], seg.1 = true →
      ∃ t ∈ ts, ciEqChars seg.2 t = true := by
  intro seg hseg htrue
  by_cases h : (findMatch pw ts []).isSome
  · simp only [subSegments, h, if_true, List.mem_singleton] at hseg
    subst hseg
    obtain ⟨n, hn⟩ := Option.isSome_iff_exists.mp h
    obtain ⟨t, ht, hm⟩ := findMatch_spec pw ts [] n hn
    obtain ⟨hlen, hci⟩ := matchLen_spec pw t [] n hm
    have ht0 : t = [] := by
      have := ciStartsWith_length_le t [] hci
      exact List.length_eq_zero.mp (Nat.le_zero.mp this)
    subst ht0
    exact ⟨[], ht, rfl⟩
  · simp only [subSegments, h, if_false] at hseg
    cases hseg

theorem subSegments_sound (ts : List (List Char)) (fuel : Nat) (pw : Bool)
    (cs : List Char) :
    ∀ seg ∈ subSegments ts fuel pw cs, seg.1 = true →
      ∃ t ∈ ts, ciEqChars seg.2 t = true := by
  induction fuel generalizing pw cs with
  | zero =>
    intro seg hseg htrue
    cases cs with
    | nil => exact subSegments_nil_sound ts 0 pw seg hseg htrue
    | cons c cs' =>
      simp only [subSegments, List.mem_singleton] at hseg
      subst hseg
      cases htrue
  | succ fuel ih =>
    intro seg hseg htrue
    cases cs with
    | nil => exact subSegments_nil_sound ts (fuel + 1) pw seg hseg htrue
    | cons c cs' =>
      simp only [subSegments] at hseg
      cases hm : findMatch pw ts (c :: cs') with
      | none =>
        rw [hm] at hseg
        rcases List.mem_cons.mp hseg with rfl | h2
        · cases htrue
        · exact ih (isWordChar c) cs' seg h2 htrue
      | some n =>
        cases n with
        | zero =>
          rw [hm] at hseg
          rcases List.mem_cons.mp hseg with rfl | h2
          · obtain ⟨t, ht, hmt⟩ := findMatch_spec pw ts (c :: cs') 0 hm
            obtain ⟨hlen, hci⟩ := matchLen_spec pw t (c :: cs') 0 hmt
            have ht0 : t = [] := List.length_eq_zero.mp hlen.symm
            subst ht0
            exact ⟨[], ht, rfl⟩
          · rcases List.mem_cons.mp h2 with rfl | h3
            · cases htrue
            · exact ih (isWordChar c) cs' seg h3 htrue
        | succ m =>
          rw [hm] at hseg
          rcases List.mem_cons.mp hseg with rfl | h2
          · obtain ⟨t, ht, hmt⟩ := findMatch_spec pw ts (c :: cs') (m + 1) hm
            obtain ⟨hlen, hci⟩ := matchLen_spec pw t (c :: cs') (m + 1) hmt
            refine ⟨t, ht, ?_⟩
            show ciEqChars ((c :: cs').take (m + 1)) t = true
            rw [hlen]
            exact ciEqChars_take t (c :: cs') hci
          · exact ih (lastWordStatus pw ((c :: cs').take (m + 1)))
              ((c :: cs').drop (m + 1)) seg h2 htrue

theorem mem_insertByLenDesc (t : String) (l : List String) (u : String)
    (h : u ∈ insertByLenDesc t l) : u = t ∨ u ∈ l := by
  induction l with
  | nil =>
    simp only [insertByLenDesc, List.mem_singleton] at h
    exact Or.inl h
  | cons v vs ih =>
    rw [insertByLenDesc] at h
    by_cases hlt : t.length < v.length
    · rw [if_pos hlt] at h
      rcases List.mem_cons.mp h with rfl | h2
      · exact Or.inr (by simp)
      · rcases ih h2 with rfl | h3
        · exact Or.inl rfl
        · exact Or.inr (by simp [h3])
    · rw [if_neg hlt] at h
      rcases List.mem_cons.mp h with rfl | h2
      · exact Or.inl rfl
      · exact Or.inr h2

theorem mem_sortByLenDesc (l : List String) (u : String)
    (h : u ∈ sortByLenDesc l) : u ∈ l := by
  induction l with
  | nil => cases h
  | cons v vs ih =>
    rw [sortByLenDesc] at h
    rcases mem_insertByLenDesc v (sortByLenDesc vs) u h with rfl | h2
    · simp
    · simp [ih h2]

theorem mem_dedupFirstFrom (l : List String) (seen : List String) (u : String)
    (h : u ∈ dedupFirstFrom seen l) : u ∈ l := by
  induction l generalizing seen with
  | nil => cases h
  | cons v vs ih =>
    rw [dedupFirstFrom] at h
    by_cases hc : seen.contains v
    · rw [if_pos hc] at h
      simp [ih seen h]
    · rw [if_neg hc] at h
      rcases List.mem_cons.mp h with rfl | h2
      · simp
      · simp [ih (v :: seen) h2]

theorem mem_prepTerms (terms : List String) (tc : List Char)
    (h : tc ∈ prepTerms terms) : ∃ t0 ∈ terms, t0.toList = tc := by
  unfold prepTerms at h
  obtain ⟨t0, ht0, rfl⟩ := List.mem_map.mp h
  exact ⟨t0, mem_dedupFirstFrom terms [] t0 (mem_sortByLenDesc _ t0 ht0), rfl⟩

/-- C8: highlighting correctness.  With a non-empty matched-term list,
`highlight_matched_terms` escapes the content and renders the segmentation
produced by the whole-word, case-insensitive, longest-alternative-first
scan over the escaped text (first conjunct); the segments concatenate to
exactly the escaped content, so apart from the inserted `<strong>` tags all
characters are unchanged (second conjunct); every wrapped segment is a
case-insensitive copy of one of the matched terms as it occurs in the
escaped text (third conjunct); and the spec's concrete vectors hold:
whole-word occurrences are wrapped case-insensitively, a term that occurs
only as a proper substring of a word (`"cat"` in `"category"`) is not
wrapped, and with both `"cat"` and `"category"` matched the longer term
wins without double-wrapping (remaining conjuncts). -/
theorem claim_C8_highlighting (text : String) (matched_terms : List String) :
    (matched_terms ≠ [] → highlight_matched_terms text matched_terms
        = String.mk (renderSegments (subSegments (prepTerms matched_terms)
            (escapeChars text.toList).length false (escapeChars text.toList))))
  ∧ ((subSegments (prepTerms matched_terms) (escapeChars text.toList).length
        false (escapeChars text.toList)).flatMap Prod.snd
      = escapeChars text.toList)
  ∧ (∀ seg ∈ subSegments (prepTerms matched_terms)
        (escapeChars text.toList).length false (escapeChars text.toList),
      seg.1 = true → ∃ t0 ∈ matched_terms, ciEqChars seg.2 t0.toList = true)
  ∧ highlight_matched_terms "The cat sat" ["cat"]
      = "The <strong>cat</strong> sat"
  ∧ highlight_matched_terms "The Cat sat" ["cat"]
      = "The <strong>Cat</strong> sat"
  ∧ highlight_matched_terms "category" ["cat"] = "category"
  ∧ highlight_matched_terms "category" ["cat", "category"]
      = "<strong>category</strong>" := by
  refine ⟨fun h => ?_, ?_, fun seg hseg htrue => ?_, by decide, by decide,
    by decide, by decide⟩
  · rw [highlight_matched_terms, if_neg h]
  · exact subSegments_join _ _ _ _ (Nat.le_refl _)
  · obtain ⟨t, ht, hci⟩ := subSegments_sound _ _ _ _ seg hseg htrue
    obtain ⟨t0, ht0, heq⟩ := mem_prepTerms matched_terms t ht
    exact ⟨t0, ht0, heq ▸ hci⟩

/-- C8 witness: the escape-and-render conjunct applied at a concrete input. -/
theorem claim_C8_witness :
    highlight_matched_terms "The cat sat" ["cat"]
      = String.mk (renderSegments (subSegments (prepTerms ["cat"])
          (escapeChars "The cat sat".toList).length false
          (escapeChars "The cat sat".toList))) :=
  (claim_C8_highlighting "The cat sat" ["cat"]).1 (by decide)

end HtrSearch
